import Mathlib

/-!
Shallow embedding of the marukov Markov-chain text generator
(src/chain.rs, src/vocab.rs, src/text.rs) and verification of its
natural-language specification.

Modelling conventions:
* Rust `HashMap` values are modelled as association lists in a fixed
  (insertion) order; `HashMap` iteration order is unspecified in Rust, so a
  deterministic order is a valid concretization for the order-insensitive
  properties proved here.
* Machine integers (`i32`, `u32`, `usize`) are modelled as `Int`/`Nat`;
  the `i32 -> usize` cast is modelled with an explicit `% 2 ^ 64`.
* The `f32` random draw and the `f32` constant `0.7` are modelled as exact
  rationals; `MOR` below is the exact value of the `f32` literal `0.7`.
* Code paths that panic (`unwrap`, out-of-bounds indexing) or that loop
  without an intrinsic bound are modelled with `Option`: `none` stands for
  a panic or for fuel exhaustion of the unbounded generation loop.
-/

namespace Marukov

/-- Constant `STATE_SIZE` from src/chain.rs. -/
def STATE_SIZE : ℕ := 2

/-- Type `State<T>` from src/chain.rs. -/
abbrev State (T : Type) := List T

/-- Type `Weight<T>` (a `HashMap<T, i32>`) from src/chain.rs, as an association
list. -/
abbrev Weight (T : Type) := List (T × Int)

/-- Type `Model<T>` (a `HashMap<State<T>, Weight<T>>`) from src/chain.rs, as an
association list. -/
abbrev Model (T : Type) := List (State T × Weight T)

/-- Loop body of `Chain::accumulate`: Rust pushes the running `total` and
only then adds the current element to it. -/
def accumulateGo : Int → List Int → List Int
  | _, [] => []
  | total, n :: rest => total :: accumulateGo (total + n) rest

/-- Function `Chain::accumulate` from src/chain.rs: `total` is initialised to
`ns[0]` and the loop then iterates over all of `ns`, re-adding `ns[0]`.
The source indexes `ns[0]` and would panic on an empty slice; every call
site passes a non-empty list, so the `[]` branch is unreachable. -/
def accumulate (ns : List Int) : List Int :=
  match ns with
  | [] => []
  | n :: _ => accumulateGo n ns

/-- Function `Chain::compile_next` from src/chain.rs: candidate tokens and their
cumulative weights, in the weight table's iteration order. -/
def compile_next {T : Type} (w : Weight T) : List T × List Int :=
  (w.map Prod.fst, accumulate (w.map Prod.snd))

/-- Core loop of `slice::binary_search` (used by `Chain::bisect_right`):
classic two-pointer halving search.  The fuel argument only bounds the
iteration count; `s.length + 1` is always enough. -/
def bsGo (s : List Int) (x : Int) : ℕ → ℕ → ℕ → Except ℕ ℕ
  | 0, left, _ => .error left
  | fuel + 1, left, right =>
    if left < right then
      let mid := (left + right) / 2
      let v := s.getD mid 0
      if v < x then bsGo s x fuel (mid + 1) right
      else if x < v then bsGo s x fuel left mid
      else .ok mid
    else .error left

/-- Rust `slice::binary_search` on a list of `i32`. -/
def binary_search (s : List Int) (x : Int) : Except ℕ ℕ :=
  bsGo s x (s.length + 1) 0 s.length

/-- Function `Chain::bisect_right` from src/chain.rs: `Ok(idx) => idx + 1`,
`Err(idx) => idx`. -/
def bisect_right (s : List Int) (x : Int) : ℕ :=
  match binary_search s x with
  | .ok i => i + 1
  | .error i => i

/-- The `Chain` struct from src/chain.rs. -/
structure Chain (T : Type) where
  token_begin : T
  token_end : T
  model : Model T
  begin_choices : List T
  begin_weights : List Int

/-- Function `Chain::begin_state` from src/chain.rs. -/
def begin_state {T : Type} (c : Chain T) : State T :=
  List.replicate STATE_SIZE c.token_begin

/-- Increment of one entry of a `Weight` table:
`.entry(follow).and_modify(|e| *e += 1).or_insert(1)`. -/
def bump {T : Type} [DecidableEq T] : Weight T → T → Weight T
  | [], t => [(t, 1)]
  | (k, v) :: rest, t =>
    if k = t then (k, v + 1) :: rest else (k, v) :: bump rest t

/-- Increment of one (state, follow) pair of a `Model`:
`model.entry(state).or_default()` followed by the weight bump. -/
def addPair {T : Type} [DecidableEq T] : Model T → State T → T → Model T
  | [], s, t => [(s, [(t, 1)])]
  | (s₀, w) :: rest, s, t =>
    if s₀ = s then (s₀, bump w t) :: rest else (s₀, w) :: addPair rest s t

/-- The extended sequence built in `Chain::build`: `STATE_SIZE` begin
sentinels, the run, then one end sentinel. -/
def extendRun {T : Type} (b e : T) (run : List T) : List T :=
  List.replicate STATE_SIZE b ++ run ++ [e]

/-- The (state, follow) pairs recorded for one run in `Chain::build`:
for `i` in `0..run.len() + 1`, the window `items[i..i + STATE_SIZE]` and
the token `items[i + STATE_SIZE]`. -/
def runPairs {T : Type} (b e : T) (run : List T) : List (State T × T) :=
  (List.range (run.length + 1)).map fun i =>
    (((extendRun b e run).drop i).take STATE_SIZE,
      (extendRun b e run).getD (i + STATE_SIZE) e)

/-- Function `Chain::build` from src/chain.rs. -/
def build {T : Type} [DecidableEq T] (b e : T) (data : List (List T)) :
    Model T :=
  data.foldl
    (fun m run => (runPairs b e run).foldl (fun m' p => addPair m' p.1 p.2) m)
    []

/-- Function `Chain::new` from src/chain.rs: build the model, then precompute the
candidate and cumulative-weight lists of the all-begin initial state
(`Chain::compute`). -/
def Chain.new {T : Type} [DecidableEq T] (data : List (List T)) (b e : T) :
    Chain T :=
  let model := build b e data
  match List.lookup (List.replicate STATE_SIZE b) model with
  | some w => ⟨b, e, model, (compile_next w).1, (compile_next w).2⟩
  | none => ⟨b, e, model, [], []⟩

/-- The candidate and cumulative-weight lists `Chain::next` works with:
the cached begin lists for the initial state, otherwise the lists compiled
on demand from the model.  A missing model entry makes the source panic at
`.unwrap()`; it is modelled by the empty pair, which makes `pick` below
return `none`. -/
def stateDist {T : Type} [DecidableEq T] (c : Chain T) (st : State T) :
    List T × List Int :=
  if st = begin_state c then (c.begin_choices, c.begin_weights)
  else
    match List.lookup st c.model with
    | some w => compile_next w
    | none => ([], [])

/-- Sampling core of `Chain::next`: scale the random fraction `r` by the
last cumulative value, truncate toward zero (the value is non-negative, so
truncation is the floor), and index the candidates with `bisect_right`.
`none` models the source's panics on an empty cumulative list or an
out-of-range index. -/
def pick {T : Type} (choices : List T) (cumdist : List Int) (r : ℚ) :
    Option T :=
  match cumdist.getLast? with
  | none => none
  | some last => choices.get? (bisect_right cumdist ⌊r * (last : ℚ)⌋)

/-- Function `Chain::next` from src/chain.rs, with the random draw passed in as an
exact rational. -/
def Chain.next {T : Type} [DecidableEq T] (c : Chain T) (st : State T)
    (r : ℚ) : Option T :=
  pick (stateDist c st).1 (stateDist c st).2 r

/-- Loop of `Chain::generate`: step with the next random draw, stop when
the end token is sampled, otherwise push the token and slide the state
window (`state.remove(0); state.push(next_word)`).  `fuel` bounds the
otherwise unbounded loop; `none` models non-termination within the fuel or
a panic inside `Chain::next`. -/
def genAux {T : Type} [DecidableEq T] (c : Chain T) (draws : ℕ → ℚ) :
    ℕ → ℕ → State T → List T → Option (List T)
  | 0, _, _, _ => none
  | fuel + 1, k, st, acc =>
    match c.next st (draws k) with
    | none => none
    | some w =>
      if w = c.token_end then some acc
      else genAux c draws fuel (k + 1) (st.drop 1 ++ [w]) (acc ++ [w])

/-- Function `Chain::generate` from src/chain.rs. -/
def Chain.generate {T : Type} [DecidableEq T] (c : Chain T) (draws : ℕ → ℚ)
    (fuel : ℕ) (init_state : Option (State T)) : Option (List T) :=
  genAux c draws fuel 0 (init_state.getD (begin_state c)) []

/-- The `Vocab` struct from src/vocab.rs; word strings are modelled as
character lists. -/
structure Vocab where
  word_to_id : List (List Char × ℕ)
  id_to_word : List (List Char)

/-- Function `Vocab::to_token` from src/vocab.rs, with the mutation made explicit:
returns the token and the updated vocabulary. -/
def Vocab.to_token (v : Vocab) (w : List Char) : ℕ × Vocab :=
  match List.lookup w v.word_to_id with
  | some id => (id, v)
  | none =>
    let id := v.id_to_word.length
    (id, ⟨(w, id) :: v.word_to_id, v.id_to_word ++ [w]⟩)

/-- Function `Vocab::to_token_opt` from src/vocab.rs. -/
def Vocab.to_token_opt (v : Vocab) (w : List Char) : Option ℕ :=
  List.lookup w v.word_to_id

/-- Function `Vocab::to_word` from src/vocab.rs: `.get(token).unwrap_or("")`. -/
def Vocab.to_word (v : Vocab) (t : ℕ) : List Char :=
  (v.id_to_word.get? t).getD []

/-- Tokenization of a list of words by successive `to_token` calls, as in
the inner map of `Text::parse`. -/
def tokenize (v : Vocab) : List (List Char) → List ℕ × Vocab
  | [] => ([], v)
  | w :: rest =>
    let p := v.to_token w
    let q := tokenize p.2 rest
    (p.1 :: q.1, q.2)

/-- The `MOR` constant from src/text.rs: the exact rational value of the
`f32` literal `0.7`, namely `11744051 / 2 ^ 24`. -/
def MOR : ℚ := 11744051 / 16777216

/-- The `MOT` constant from src/text.rs. -/
def MOT : ℕ := 15

/-- Rust `str::contains`: substring occurrence, on character lists. -/
def containsList (hay pat : List Char) : Bool :=
  (List.range (hay.length + 1)).any fun i => pat.isPrefixOf (hay.drop i)

/-- Rust `[String]::join(" ")`, on character lists. -/
def joinWords : List (List Char) → List Char
  | [] => []
  | [w] => w
  | w :: rest => w ++ ' ' :: joinWords rest

/-- The `overlap_max` of `Text::verify`:
`mot.min((mor * words.len() as f32).round() as usize)`.  The float-to-int
cast saturates at zero for negative values, modelled by `Int.toNat`. -/
def overlapMaxOf (mor : ℚ) (mot : ℕ) (len : ℕ) : ℕ :=
  min mot (round (mor * (len : ℚ))).toNat

/-- The `gram_count` of `Text::verify`:
`(words.len().saturating_sub(overlap_max)).max(1)`. -/
def gramCountOf (mor : ℚ) (mot : ℕ) (len : ℕ) : ℕ :=
  max (len - overlapMaxOf mor mot len) 1

/-- The `TextOptions` struct from src/text.rs (`i32` fields). -/
structure TextOptions where
  tries : Int
  min_words : Int
  max_words : Int

/-- Rust `i32 as usize` (64-bit): sign extension then reinterpretation. -/
def usizeOfI32 (n : Int) : ℕ := (n % (2 : Int) ^ 64).toNat

/-- The `Text` struct from src/text.rs.  The `reject` regex only shapes
`Text::parse`, which is out of scope of the claims, so it is omitted. -/
structure Text where
  parsed_sentences : List (List ℕ)
  rejoined_text : List Char
  chain : Chain ℕ
  tokenizer : Vocab

/-- Function `Text::verify` from src/text.rs: the window `words[i..(i + overlap_max
+ 1).min(words.len())]` is `(words.drop i).take (overlap_max + 1)`; the
loop returning `false` on the first hit is the `all` of the negated
check. -/
def Text.verify (txt : Text) (words : List (List Char)) (mor : ℚ)
    (mot : ℕ) : Bool :=
  (List.range (gramCountOf mor mot words.length)).all fun i =>
    ! containsList txt.rejoined_text
        (joinWords ((words.drop i).take (overlapMaxOf mor mot words.length + 1)))

/-- Loop of `Text::generate`, by remaining tries.  `draws n` is the random
stream handed to the chain on the attempt with `n` tries remaining; `none`
models a panic or fuel exhaustion inside `Chain::generate`. -/
def textGenAux (txt : Text) (draws : ℕ → ℕ → ℚ) (fuel : ℕ)
    (opts : TextOptions) : ℕ → Option (List Char)
  | 0 => some []
  | n + 1 =>
    match txt.chain.generate (draws n) fuel none with
    | none => none
    | some tokens =>
      if tokens.length > usizeOfI32 opts.max_words ∨
          tokens.length < usizeOfI32 opts.min_words then
        textGenAux txt draws fuel opts n
      else
        let words := tokens.map fun tok => txt.tokenizer.to_word tok
        if txt.verify words MOR MOT then some (joinWords words)
        else textGenAux txt draws fuel opts n

/-- Function `Text::generate` from src/text.rs: `for _ in 0..options.tries` runs
`max(tries, 0)` iterations. -/
def Text.generate (txt : Text) (draws : ℕ → ℕ → ℚ) (fuel : ℕ)
    (opts : TextOptions) : Option (List Char) :=
  textGenAux txt draws fuel opts opts.tries.toNat

/-- Specification-side count (from the spec's words): how often window `s`
is immediately followed by token `t` across all extended sequences, one
window position for each `i` in `0..run.len() + 1`. -/
def specOccCount {T : Type} [DecidableEq T] (b e : T) (data : List (List T))
    (s : State T) (t : T) : ℕ :=
  (data.map fun run =>
    (List.range (run.length + 1)).countP fun i =>
      decide (((extendRun b e run).drop i).take STATE_SIZE = s ∧
        (extendRun b e run).getD (i + STATE_SIZE) e = t)).sum

/-- Weight stored in a model for a (state, token) pair, zero when absent. -/
def mcount {T : Type} [DecidableEq T] (m : Model T) (s : State T) (t : T) :
    Int :=
  ((List.lookup t ((List.lookup s m).getD [])).getD 0)

/-- Synchronisation invariant of `Vocab` (spec section 3): every entry of
`word_to_id` points back to its word in `id_to_word`.  It holds for the
empty vocabulary and is preserved by `to_token`, the single insertion
path. -/
def Synced (v : Vocab) : Prop :=
  ∀ p ∈ v.word_to_id, v.id_to_word.get? p.2 = some p.1

/-! ### Helper lemmas -/

theorem accumulateGo_length (ns : List Int) :
    ∀ total, (accumulateGo total ns).length = ns.length := by
  induction ns with
  | nil => intro total; rfl
  | cons n rest ih =>
    intro total
    simp [accumulateGo, ih]

theorem accumulateGo_getD (ns : List Int) :
    ∀ total i, i < ns.length →
      (accumulateGo total ns).getD i 0 = total + (ns.take i).sum := by
  induction ns with
  | nil => intro total i h; exact absurd h (Nat.not_lt_zero i)
  | cons n rest ih =>
    intro total i h
    cases i with
    | zero => simp [accumulateGo]
    | succ j =>
      have hj : j < rest.length := Nat.lt_of_succ_lt_succ h
      simp only [accumulateGo, List.getD_cons_succ, List.take_succ_cons,
        List.sum_cons]
      rw [ih (total + n) j hj]
      ring

theorem lookup_mem {α β : Type} [BEq α] [LawfulBEq α] :
    ∀ (l : List (α × β)) (a : α) (b : β),
      List.lookup a l = some b → (a, b) ∈ l := by
  intro l
  induction l with
  | nil => intro a b h; simp [List.lookup] at h
  | cons p rest ih =>
    intro a b h
    rw [List.lookup_cons] at h
    by_cases hk : a = p.1
    · subst hk
      simp at h
      subst h
      exact List.mem_cons_self _ _
    · have : (a == p.1) = false := beq_false_of_ne hk
      rw [this] at h
      exact List.mem_cons_of_mem _ (ih a b h)

theorem sorted_getD_lt {s : List Int} (hs : s.Sorted (· < ·)) {i j : ℕ}
    (hij : i < j) (hj : j < s.length) : s.getD i 0 < s.getD j 0 := by
  have hi : i < s.length := Nat.lt_trans hij hj
  rw [List.getD_eq_get s 0 hi, List.getD_eq_get s 0 hj]
  exact List.Sorted.get_strictMono hs (show (⟨i, hi⟩ : Fin s.length) < ⟨j, hj⟩ from hij)

theorem bsGo_ok (s : List Int) (x : Int) :
    ∀ fuel left right i, right ≤ s.length →
      bsGo s x fuel left right = .ok i → i < s.length ∧ s.getD i 0 = x := by
  intro fuel
  induction fuel with
  | zero => intro left right i _ h; simp [bsGo] at h
  | succ fuel ih =>
    intro left right i hrlen h
    rw [bsGo] at h
    by_cases hlr : left < right
    · rw [if_pos hlr] at h
      by_cases h1 : s.getD ((left + right) / 2) 0 < x
      · rw [if_pos h1] at h
        exact ih _ _ _ hrlen h
      · rw [if_neg h1] at h
        by_cases h2 : x < s.getD ((left + right) / 2) 0
        · rw [if_pos h2] at h
          exact ih _ _ _ (Nat.le_trans (Nat.le_of_lt (by omega)) hrlen) h
        · rw [if_neg h2] at h
          have hi : i = (left + right) / 2 := by
            cases h; rfl
          subst hi
          exact ⟨by omega, le_antisymm (not_lt.mp h2) (not_lt.mp h1)⟩
    · rw [if_neg hlr] at h
      cases h

theorem bsGo_err (s : List Int) (x : Int) (hs : s.Sorted (· < ·)) :
    ∀ fuel left right i, right - left < fuel → left ≤ right →
      right ≤ s.length →
      (∀ j, j < left → s.getD j 0 < x) →
      (∀ j, right ≤ j → j < s.length → x < s.getD j 0) →
      bsGo s x fuel left right = .error i →
      i ≤ s.length ∧ (∀ j, j < i → s.getD j 0 < x) ∧
        (∀ j, i ≤ j → j < s.length → x < s.getD j 0) := by
  intro fuel
  induction fuel with
  | zero => intro left right i hf _ _ _ _ _; exact absurd hf (Nat.not_lt_zero _)
  | succ fuel ih =>
    intro left right i hf hlr hrlen hpre hpost h
    rw [bsGo] at h
    by_cases hlt : left < right
    · rw [if_pos hlt] at h
      have hmid1 : left ≤ (left + right) / 2 := by omega
      have hmid2 : (left + right) / 2 < right := by omega
      have hmidlen : (left + right) / 2 < s.length := Nat.lt_of_lt_of_le hmid2 hrlen
      by_cases h1 : s.getD ((left + right) / 2) 0 < x
      · rw [if_pos h1] at h
        refine ih ((left + right) / 2 + 1) right i (by omega) (by omega) hrlen ?_ hpost h
        intro j hj
        rcases Nat.lt_succ_iff_lt_or_eq.mp hj with hj' | hj'
        · exact lt_trans (sorted_getD_lt hs hj' hmidlen) h1
        · rw [hj']; exact h1
      · rw [if_neg h1] at h
        by_cases h2 : x < s.getD ((left + right) / 2) 0
        · rw [if_pos h2] at h
          refine ih left ((left + right) / 2) i (by omega) hmid1
            (Nat.le_of_lt hmidlen) hpre ?_ h
          intro j hj hjlen
          rcases Nat.lt_or_ge ((left + right) / 2) j with hj' | hj'
          · exact lt_trans h2 (sorted_getD_lt hs hj' hjlen)
          · have : j = (left + right) / 2 := by omega
            rw [this]; exact h2
        · rw [if_neg h2] at h
          cases h
    · rw [if_neg hlt] at h
      have heq : left = i := by injection h
      subst heq
      have hleq : left = right := by omega
      exact ⟨by omega, hpre, fun j hj hjlen => hpost j (by omega) hjlen⟩

theorem bisect_right_spec (s : List Int) (x : Int) (hs : s.Sorted (· < ·)) :
    bisect_right s x ≤ s.length ∧
      (∀ j, j < bisect_right s x → j < s.length → s.getD j 0 ≤ x) ∧
      (∀ j, bisect_right s x ≤ j → j < s.length → x < s.getD j 0) := by
  unfold bisect_right binary_search
  cases h : bsGo s x (s.length + 1) 0 s.length with
  | ok i =>
    obtain ⟨hilen, hix⟩ := bsGo_ok s x _ _ _ i (le_refl _) h
    refine ⟨hilen, ?_, ?_⟩
    · intro j hj hjlen
      rcases Nat.lt_succ_iff_lt_or_eq.mp hj with hj' | hj'
      · exact le_of_lt (hix ▸ sorted_getD_lt hs hj' hilen)
      · rw [hj', hix]
    · intro j hj hjlen
      exact hix ▸ sorted_getD_lt hs hj hjlen
  | error i =>
    obtain ⟨hilen, hlt, hgt⟩ := bsGo_err s x hs _ _ _ i (by omega) (Nat.zero_le _)
      (le_refl _) (fun j hj => absurd hj (Nat.not_lt_zero j))
      (fun j hj hjlen => absurd (Nat.lt_of_le_of_lt hj hjlen) (lt_irrefl _)) h
    exact ⟨hilen, fun j hj _ => le_of_lt (hlt j hj), hgt⟩

theorem getLastD_eq_getLast {s : List Int} (h : s ≠ []) :
    s.getLastD 0 = s.getLast h := by
  rw [List.getLastD_eq_getLast?, List.getLast?_eq_getLast_of_ne_nil h]
  rfl

theorem getLast?_eq_getLastD {s : List Int} (h : s ≠ []) :
    s.getLast? = some (s.getLastD 0) := by
  rw [List.getLast?_eq_getLast_of_ne_nil h, getLastD_eq_getLast h]

theorem getLastD_mem {s : List Int} (h : s ≠ []) : s.getLastD 0 ∈ s := by
  rw [getLastD_eq_getLast h]
  exact List.getLast_mem h

theorem getD_last {s : List Int} (h : s ≠ []) :
    s.getD (s.length - 1) 0 = s.getLastD 0 := by
  have hlen : 0 < s.length := List.length_pos.mpr h
  rw [getLastD_eq_getLast h, List.getLast_eq_getElem,
    List.getD_eq_getElem s 0 (by omega)]

/-- Core property of the sampling step `pick`: for a non-empty, strictly
sorted, positive cumulative list, the chosen index is the first position
whose cumulative value strictly exceeds the truncated scaled draw
`⌊r * last⌋` (equivalently, the first position with value at least the
target where a tie moves to the following bucket). -/
theorem pick_spec {T : Type} (choices : List T) (cumdist : List Int) (r : ℚ)
    (hne : cumdist ≠ []) (hlen : choices.length = cumdist.length)
    (hs : cumdist.Sorted (· < ·)) (hpos : ∀ v ∈ cumdist, 0 < v)
    (h0 : 0 ≤ r) (h1 : r < 1) :
    ∃ i, i < choices.length ∧
      (∀ j, j < i → cumdist.getD j 0 ≤ ⌊r * ((cumdist.getLastD 0 : Int) : ℚ)⌋) ∧
      ⌊r * ((cumdist.getLastD 0 : Int) : ℚ)⌋ < cumdist.getD i 0 ∧
      pick choices cumdist r = choices.get? i := by
  have hL : cumdist.getLast? = some (cumdist.getLastD 0) := getLast?_eq_getLastD hne
  set L : Int := cumdist.getLastD 0 with hLdef
  have hLpos : 0 < L := hpos L (getLastD_mem hne)
  set t : Int := ⌊r * (L : ℚ)⌋ with htdef
  have htL : t < L := by
    rw [htdef, Int.floor_lt]
    calc r * (L : ℚ) < 1 * (L : ℚ) := by
          exact mul_lt_mul_of_pos_right h1 (by exact_mod_cast hLpos)
      _ = (L : ℚ) := one_mul _
  obtain ⟨hble, hle, hgt⟩ := bisect_right_spec cumdist t hs
  have hlt : bisect_right cumdist t < cumdist.length := by
    rcases Nat.lt_or_ge (bisect_right cumdist t) cumdist.length with h | h
    · exact h
    · exfalso
      have hlast : cumdist.getD (cumdist.length - 1) 0 ≤ t := by
        refine hle _ ?_ ?_
        · have : 0 < cumdist.length := List.length_pos.mpr hne
          omega
        · have : 0 < cumdist.length := List.length_pos.mpr hne
          omega
      rw [getD_last hne] at hlast
      exact absurd (lt_of_le_of_lt hlast htL) (lt_irrefl L)
  refine ⟨bisect_right cumdist t, by omega, ?_, ?_, ?_⟩
  · intro j hj
    exact hle j hj (lt_trans hj hlt)
  · exact hgt _ (le_refl _) hlt
  · unfold pick
    rw [hL]

theorem accumulateGo_pos (ns : List Int) :
    ∀ total, 0 < total → (∀ n ∈ ns, 0 < n) →
      ∀ v ∈ accumulateGo total ns, 0 < v := by
  induction ns with
  | nil => intro total _ _ v hv; simp [accumulateGo] at hv
  | cons n rest ih =>
    intro total htot hns v hv
    rw [accumulateGo] at hv
    rcases List.mem_cons.mp hv with hv | hv
    · rw [hv]; exact htot
    · exact ih (total + n)
        (by have := hns n (List.mem_cons_self n rest); omega)
        (fun m hm => hns m (List.mem_cons_of_mem n hm)) v hv

theorem accumulateGo_chain (ns : List Int) :
    ∀ total, (∀ n ∈ ns, 0 < n) →
      List.Chain' (· < ·) (accumulateGo total ns) := by
  induction ns with
  | nil => intro total _; simp [accumulateGo]
  | cons n rest ih =>
    intro total hns
    rw [accumulateGo]
    cases rest with
    | nil => simp [accumulateGo]
    | cons m rest' =>
      rw [accumulateGo]
      refine List.Chain'.cons ?_ ?_
      · have := hns n (List.mem_cons_self n _)
        omega
      · have := ih (total + n) (fun x hx => hns x (List.mem_cons_of_mem n hx))
        rwa [accumulateGo] at this

theorem accumulate_sorted (ns : List Int) (hpos : ∀ n ∈ ns, 0 < n) :
    (accumulate ns).Sorted (· < ·) := by
  cases ns with
  | nil => simp [accumulate]
  | cons n rest =>
    rw [accumulate]
    exact List.chain'_iff_pairwise.mp (accumulateGo_chain (n :: rest) n hpos)

theorem accumulate_pos (ns : List Int) (hpos : ∀ n ∈ ns, 0 < n) :
    ∀ v ∈ accumulate ns, 0 < v := by
  cases ns with
  | nil => intro v hv; simp [accumulate] at hv
  | cons n rest =>
    rw [accumulate]
    exact accumulateGo_pos (n :: rest) n (hpos n (List.mem_cons_self n rest)) hpos

theorem accumulate_ne_nil (ns : List Int) (h : ns ≠ []) : accumulate ns ≠ [] := by
  cases ns with
  | nil => exact absurd rfl h
  | cons n rest => rw [accumulate, accumulateGo]; exact List.cons_ne_nil _ _

theorem accumulate_length (ns : List Int) :
    (accumulate ns).length = ns.length := by
  cases ns with
  | nil => rfl
  | cons n rest => rw [accumulate]; exact accumulateGo_length _ n

/-! ### Model construction lemmas -/

theorem bump_lookup {T : Type} [DecidableEq T] (w : Weight T) (t' t : T) :
    List.lookup t (bump w t') =
      if t = t' then some ((List.lookup t' w).getD 0 + 1)
      else List.lookup t w := by
  induction w with
  | nil =>
    rw [bump]
    by_cases h : t = t'
    · subst h; simp [List.lookup]
    · simp [List.lookup, h, beq_false_of_ne h]
  | cons p rest ih =>
    obtain ⟨k, v⟩ := p
    rw [bump]
    by_cases hk : k = t'
    · subst hk
      by_cases ht : t = k
      · subst ht; simp [List.lookup]
      · simp [List.lookup, beq_false_of_ne ht, ht]
    · rw [if_neg hk]
      by_cases ht : t = k
      · have h1 : ¬t = t' := fun h => hk (ht.symm.trans h)
        simp [List.lookup_cons, ht, hk]
      · have h2 : (t == k) = false := beq_false_of_ne ht
        have h3 : (t' == k) = false := beq_false_of_ne (fun h => hk h.symm)
        simp only [List.lookup_cons, h2]
        rw [ih]
        by_cases htt : t = t'
        · rw [if_pos htt, if_pos htt]
          simp [List.lookup_cons, h3]
        · rw [if_neg htt, if_neg htt]

theorem addPair_lookup {T : Type} [DecidableEq T] (m : Model T)
    (s' : State T) (t' : T) (s : State T) :
    List.lookup s (addPair m s' t') =
      if s = s' then some (bump ((List.lookup s' m).getD []) t')
      else List.lookup s m := by
  induction m with
  | nil =>
    rw [addPair]
    by_cases h : s = s'
    · subst h; simp [List.lookup, bump]
    · simp [List.lookup, h, beq_false_of_ne h]
  | cons p rest ih =>
    obtain ⟨s₀, w₀⟩ := p
    rw [addPair]
    by_cases h0 : s₀ = s'
    · subst h0
      by_cases hs : s = s₀
      · subst hs; simp [List.lookup]
      · simp [List.lookup, beq_false_of_ne hs, hs]
    · rw [if_neg h0]
      by_cases hs : s = s₀
      · have h1 : ¬s = s' := fun h => h0 (hs.symm.trans h)
        simp [List.lookup_cons, hs, h0]
      · have h2 : (s == s₀) = false := beq_false_of_ne hs
        have h3 : (s' == s₀) = false := beq_false_of_ne (fun h => h0 h.symm)
        simp only [List.lookup_cons, h2]
        rw [ih]
        by_cases hss : s = s'
        · rw [if_pos hss, if_pos hss]
          simp [List.lookup_cons, h3]
        · rw [if_neg hss, if_neg hss]

theorem bump_ne_nil {T : Type} [DecidableEq T] (w : Weight T) (t : T) :
    bump w t ≠ [] := by
  cases w with
  | nil => rw [bump]; exact List.cons_ne_nil _ _
  | cons p rest =>
    obtain ⟨k, v⟩ := p
    rw [bump]
    by_cases h : k = t
    · rw [if_pos h]; exact List.cons_ne_nil _ _
    · rw [if_neg h]; exact List.cons_ne_nil _ _

theorem bump_entries {T : Type} [DecidableEq T] {S : T → Prop}
    (w : Weight T) (t' : T) (hS : S t')
    (hw : ∀ q ∈ w, 1 ≤ q.2 ∧ S q.1) :
    ∀ q ∈ bump w t', 1 ≤ q.2 ∧ S q.1 := by
  induction w with
  | nil =>
    intro q hq
    rw [bump] at hq
    rcases List.mem_cons.mp hq with hq | hq
    · rw [hq]; exact ⟨le_refl 1, hS⟩
    · simp at hq
  | cons p rest ih =>
    obtain ⟨k, v⟩ := p
    intro q hq
    rw [bump] at hq
    by_cases h : k = t'
    · rw [if_pos h] at hq
      rcases List.mem_cons.mp hq with hq | hq
      · have := hw (k, v) (List.mem_cons_self _ _)
        rw [hq]
        exact ⟨by have := this.1; simp only at this ⊢; omega, this.2⟩
      · exact hw q (List.mem_cons_of_mem _ hq)
    · rw [if_neg h] at hq
      rcases List.mem_cons.mp hq with hq | hq
      · rw [hq]; exact hw (k, v) (List.mem_cons_self _ _)
      · exact ih (fun r hr => hw r (List.mem_cons_of_mem _ hr)) q hq

theorem mcount_addPair {T : Type} [DecidableEq T] (m : Model T)
    (s' : State T) (t' : T) (s : State T) (t : T) :
    mcount (addPair m s' t') s t =
      mcount m s t + if s = s' ∧ t = t' then 1 else 0 := by
  unfold mcount
  rw [addPair_lookup]
  by_cases hs : s = s'
  · rw [if_pos hs, Option.getD_some, bump_lookup]
    by_cases ht : t = t'
    · rw [if_pos ht, if_pos ⟨hs, ht⟩, Option.getD_some, hs, ht]
    · rw [if_neg ht, if_neg (fun h => ht h.2), hs, add_zero]
  · rw [if_neg hs, if_neg (fun h => hs h.1), add_zero]

theorem foldl_addPair_mcount {T : Type} [DecidableEq T]
    (ps : List (State T × T)) :
    ∀ (m : Model T) (s : State T) (t : T),
      mcount (ps.foldl (fun m' p => addPair m' p.1 p.2) m) s t =
        mcount m s t + (ps.countP fun p => decide (p = (s, t))) := by
  induction ps with
  | nil => intro m s t; simp
  | cons p rest ih =>
    intro m s t
    rw [List.foldl_cons, ih, mcount_addPair, List.countP_cons]
    have : (decide (p = (s, t)) = true) ↔ (p.1 = s ∧ p.2 = t) := by
      rw [decide_eq_true_iff, Prod.ext_iff]
    by_cases hp : p.1 = s ∧ p.2 = t
    · rw [if_pos ⟨hp.1.symm, hp.2.symm⟩, if_pos (this.mpr hp)]
      push_cast
      ring
    · have h1 : ¬(s = p.1 ∧ t = p.2) := fun h => hp ⟨h.1.symm, h.2.symm⟩
      rw [if_neg h1, if_neg (fun h => hp (this.mp h))]
      push_cast
      ring

theorem mcount_build {T : Type} [DecidableEq T] (b e : T)
    (data : List (List T)) :
    ∀ (m : Model T) (s : State T) (t : T),
      mcount (data.foldl
        (fun m run => (runPairs b e run).foldl (fun m' p => addPair m' p.1 p.2) m)
        m) s t =
        mcount m s t +
          ((data.map fun run =>
            (runPairs b e run).countP fun p => decide (p = (s, t))).sum : ℕ) := by
  induction data with
  | nil => intro m s t; simp
  | cons run rest ih =>
    intro m s t
    rw [List.foldl_cons, ih, foldl_addPair_mcount, List.map_cons, List.sum_cons]
    push_cast
    ring

theorem runPairs_countP {T : Type} [DecidableEq T] (b e : T) (run : List T)
    (s : State T) (t : T) :
    ((runPairs b e run).countP fun p => decide (p = (s, t))) =
      (List.range (run.length + 1)).countP fun i =>
        decide (((extendRun b e run).drop i).take STATE_SIZE = s ∧
          (extendRun b e run).getD (i + STATE_SIZE) e = t) := by
  rw [runPairs, List.countP_map]
  refine List.countP_congr ?_
  intro i _
  simp only [Function.comp_apply, decide_eq_true_iff, Prod.ext_iff]

theorem build_inv {T : Type} [DecidableEq T] (S : T → Prop) :
    ∀ (ps : List (State T × T)) (m : Model T),
      (∀ p ∈ ps, S p.2) →
      (∀ s w, List.lookup s m = some w →
        w ≠ [] ∧ ∀ q ∈ w, 1 ≤ q.2 ∧ S q.1) →
      ∀ s w, List.lookup s (ps.foldl (fun m' p => addPair m' p.1 p.2) m) = some w →
        w ≠ [] ∧ ∀ q ∈ w, 1 ≤ q.2 ∧ S q.1 := by
  intro ps
  induction ps with
  | nil => intro m _ hm s w h; exact hm s w h
  | cons p rest ih =>
    intro m hps hm s w h
    rw [List.foldl_cons] at h
    refine ih (addPair m p.1 p.2) (fun q hq => hps q (List.mem_cons_of_mem p hq))
      ?_ s w h
    intro s' w' h'
    rw [addPair_lookup] at h'
    by_cases hs : s' = p.1
    · rw [if_pos hs] at h'
      have hw' : w' = bump ((List.lookup p.1 m).getD []) p.2 := by
        injection h'.symm
      subst hw'
      have hold : ∀ q ∈ (List.lookup p.1 m).getD [], 1 ≤ q.2 ∧ S q.1 := by
        cases hold : List.lookup p.1 m with
        | none => intro q hq; simp at hq
        | some w₀ =>
          intro q hq
          exact (hm p.1 w₀ hold).2 q hq
      constructor
      · exact bump_ne_nil _ _
      · exact bump_entries _ _ (hps p (List.mem_cons_self p rest)) hold
    · rw [if_neg hs] at h'
      exact hm s' w' h'

theorem runPairs_snd {T : Type} (b e : T) (run : List T) :
    ∀ p ∈ runPairs b e run, p.2 ∈ run ∨ p.2 = e := by
  intro p hp
  rw [runPairs] at hp
  obtain ⟨i, hi, hfi⟩ := List.mem_map.mp hp
  rw [List.mem_range] at hi
  have hext : extendRun b e run = b :: b :: (run ++ [e]) := by
    simp [extendRun, STATE_SIZE, List.replicate]
  have hsnd : p.2 = (run ++ [e]).getD i e := by
    rw [← hfi]
    simp only [hext, STATE_SIZE]
    rfl
  rw [hsnd]
  have hilen : i < (run ++ [e]).length := by
    rw [List.length_append, List.length_singleton]
    omega
  rw [List.getD_eq_getElem _ _ hilen]
  rcases Nat.lt_or_ge i run.length with hi' | hi'
  · left
    rw [List.getElem_append_left hi']
    exact List.getElem_mem _
  · right
    have hieq : i = run.length := by omega
    subst hieq
    simp

theorem build_entries {T : Type} [DecidableEq T] (b e : T)
    (data : List (List T)) :
    ∀ s w, List.lookup s (build b e data) = some w →
      w ≠ [] ∧ ∀ q ∈ w, 1 ≤ q.2 ∧ ((∃ run ∈ data, q.1 ∈ run) ∨ q.1 = e) := by
  have main : ∀ (rest : List (List T)) (m : Model T),
      (∀ run ∈ rest, run ∈ data) →
      (∀ s w, List.lookup s m = some w →
        w ≠ [] ∧ ∀ q ∈ w, 1 ≤ q.2 ∧ ((∃ run ∈ data, q.1 ∈ run) ∨ q.1 = e)) →
      ∀ s w,
        List.lookup s (rest.foldl
          (fun m run =>
            (runPairs b e run).foldl (fun m' p => addPair m' p.1 p.2) m) m) =
          some w →
        w ≠ [] ∧ ∀ q ∈ w, 1 ≤ q.2 ∧ ((∃ run ∈ data, q.1 ∈ run) ∨ q.1 = e) := by
    intro rest
    induction rest with
    | nil => intro m _ hm s w h; exact hm s w h
    | cons run rest' ih =>
      intro m hsub hm s w h
      rw [List.foldl_cons] at h
      refine ih _ (fun r hr => hsub r (List.mem_cons_of_mem run hr)) ?_ s w h
      intro s' w' h'
      refine build_inv (fun x => (∃ run' ∈ data, x ∈ run') ∨ x = e)
        (runPairs b e run) m ?_ hm s' w' h'
      intro p hp
      rcases runPairs_snd b e run p hp with hpr | hpr
      · exact Or.inl ⟨run, hsub run (List.mem_cons_self run rest'), hpr⟩
      · exact Or.inr hpr
  intro s w h
  rw [build] at h
  refine main data [] (fun run hr => hr) ?_ s w h
  intro s' w' h'
  simp [List.lookup] at h'

theorem new_eq_some {T : Type} [DecidableEq T] (data : List (List T)) (b e : T)
    (w : Weight T)
    (h : List.lookup (List.replicate STATE_SIZE b) (build b e data) = some w) :
    Chain.new data b e =
      ⟨b, e, build b e data, (compile_next w).1, (compile_next w).2⟩ := by
  rw [Chain.new]
  simp only [h]

theorem new_eq_none {T : Type} [DecidableEq T] (data : List (List T)) (b e : T)
    (h : List.lookup (List.replicate STATE_SIZE b) (build b e data) = none) :
    Chain.new data b e = ⟨b, e, build b e data, [], []⟩ := by
  rw [Chain.new]
  simp only [h]

theorem new_model {T : Type} [DecidableEq T] (data : List (List T)) (b e : T) :
    (Chain.new data b e).model = build b e data := by
  cases h : List.lookup (List.replicate STATE_SIZE b) (build b e data) with
  | none => rw [new_eq_none data b e h]
  | some w => rw [new_eq_some data b e w h]

theorem stateDist_new {T : Type} [DecidableEq T] (data : List (List T))
    (b e : T) (st : State T)
    (hne : (stateDist (Chain.new data b e) st).2 ≠ []) :
    ∃ w, List.lookup st (build b e data) = some w ∧
      stateDist (Chain.new data b e) st = compile_next w := by
  cases h : List.lookup (List.replicate STATE_SIZE b) (build b e data) with
  | some w =>
    rw [new_eq_some data b e w h] at hne ⊢
    by_cases hb : st = List.replicate STATE_SIZE b
    · refine ⟨w, hb ▸ h, ?_⟩
      rw [stateDist, if_pos (by rw [hb]; rfl)]
    · rw [stateDist, if_neg (by exact hb)] at hne ⊢
      cases h2 : List.lookup st
          (Chain.model ⟨b, e, build b e data, (compile_next w).1,
            (compile_next w).2⟩) with
      | some w' => exact ⟨w', rfl, rfl⟩
      | none => rw [h2] at hne; exact absurd rfl hne
  | none =>
    rw [new_eq_none data b e h] at hne ⊢
    by_cases hb : st = List.replicate STATE_SIZE b
    · rw [stateDist, if_pos (by rw [hb]; rfl)] at hne
      exact absurd rfl hne
    · rw [stateDist, if_neg (by exact hb)] at hne ⊢
      cases h2 : List.lookup st
          (Chain.model ⟨b, e, build b e data, [], []⟩) with
      | some w' => exact ⟨w', rfl, rfl⟩
      | none => rw [h2] at hne; exact absurd rfl hne

theorem stateDist_new_cases {T : Type} [DecidableEq T] (data : List (List T))
    (b e : T) (st : State T) :
    (∃ w, List.lookup st (build b e data) = some w ∧
      stateDist (Chain.new data b e) st = compile_next w) ∨
    stateDist (Chain.new data b e) st = ([], []) := by
  cases h : List.lookup (List.replicate STATE_SIZE b) (build b e data) with
  | some w =>
    rw [new_eq_some data b e w h]
    by_cases hb : st = List.replicate STATE_SIZE b
    · left
      refine ⟨w, hb ▸ h, ?_⟩
      rw [stateDist, if_pos (by rw [hb]; rfl)]
    · rw [stateDist, if_neg (by exact hb)]
      cases h2 : List.lookup st
          (Chain.model ⟨b, e, build b e data, (compile_next w).1,
            (compile_next w).2⟩) with
      | some w' => left; exact ⟨w', rfl, rfl⟩
      | none => right; rfl
  | none =>
    rw [new_eq_none data b e h]
    by_cases hb : st = List.replicate STATE_SIZE b
    · right
      rw [stateDist, if_pos (by rw [hb]; rfl)]
    · rw [stateDist, if_neg (by exact hb)]
      cases h2 : List.lookup st
          (Chain.model ⟨b, e, build b e data, [], []⟩) with
      | some w' => left; exact ⟨w', rfl, rfl⟩
      | none => right; rfl

theorem floor_zero_of_lt_one (r : ℚ) (h0 : 0 ≤ r) (h1 : r < 1) : ⌊r⌋ = 0 :=
  Int.floor_eq_zero_iff.mpr (Set.mem_Ico.mpr ⟨h0, h1⟩)

theorem pick_one {T : Type} (x : T) (r : ℚ) (h0 : 0 ≤ r) (h1 : r < 1) :
    pick [x] [1] r = some x := by
  show [x].get? (bisect_right [1] ⌊r * ((1 : Int) : ℚ)⌋) = some x
  rw [Int.cast_one, mul_one, floor_zero_of_lt_one r h0 h1]
  rfl

theorem next_mem {T : Type} [DecidableEq T] (c : Chain T) (st : State T)
    (r : ℚ) (x : T) (h : c.next st r = some x) :
    x ∈ (stateDist c st).1 := by
  rw [Chain.next, pick] at h
  cases hL : (stateDist c st).2.getLast? with
  | none => rw [hL] at h; cases h
  | some L =>
    rw [hL] at h
    exact List.get?_mem h

theorem next_new_tokens {T : Type} [DecidableEq T] (data : List (List T))
    (b e : T) (st : State T) (r : ℚ) (x : T)
    (h : (Chain.new data b e).next st r = some x) :
    (∃ run ∈ data, x ∈ run) ∨ x = e := by
  have hx := next_mem _ _ _ _ h
  rcases stateDist_new_cases data b e st with ⟨w, hlk, hsd⟩ | hsd
  · rw [hsd, compile_next] at hx
    obtain ⟨q, hq, hqx⟩ := List.mem_map.mp hx
    have hent := (build_entries b e data st w hlk).2 q hq
    rw [← hqx]
    exact hent.2
  · rw [hsd] at hx
    simp at hx

theorem genAux_succ {T : Type} [DecidableEq T] (c : Chain T) (draws : ℕ → ℚ)
    (fuel k : ℕ) (st : State T) (acc : List T) :
    genAux c draws (fuel + 1) k st acc =
      match c.next st (draws k) with
      | none => none
      | some w =>
        if w = c.token_end then some acc
        else genAux c draws fuel (k + 1) (st.drop 1 ++ [w]) (acc ++ [w]) := rfl

theorem genAux_step_cons {T : Type} [DecidableEq T] (c : Chain T)
    (draws : ℕ → ℚ) (fuel k : ℕ) (st : State T) (acc : List T) (w : T)
    (hw : c.next st (draws k) = some w) (hne : ¬w = c.token_end) :
    genAux c draws (fuel + 1) k st acc =
      genAux c draws fuel (k + 1) (st.drop 1 ++ [w]) (acc ++ [w]) := by
  rw [genAux_succ, hw]
  exact if_neg hne

theorem genAux_step_end {T : Type} [DecidableEq T] (c : Chain T)
    (draws : ℕ → ℚ) (fuel k : ℕ) (st : State T) (acc : List T) (w : T)
    (hw : c.next st (draws k) = some w) (hend : w = c.token_end) :
    genAux c draws (fuel + 1) k st acc = some acc := by
  rw [genAux_succ, hw]
  exact if_pos hend

theorem genAux_sound {T : Type} [DecidableEq T] (c : Chain T) (draws : ℕ → ℚ)
    (P : T → Prop)
    (hP : ∀ st r x, c.next st r = some x → ¬x = c.token_end → P x) :
    ∀ fuel k (st : State T) (acc out : List T),
      (∀ x ∈ acc, P x) → genAux c draws fuel k st acc = some out →
      ∀ x ∈ out, P x := by
  intro fuel
  induction fuel with
  | zero =>
    intro k st acc out _ h
    simp [genAux] at h
  | succ fuel ih =>
    intro k st acc out hacc h
    rw [genAux_succ] at h
    cases hx : c.next st (draws k) with
    | none => rw [hx] at h; cases h
    | some w =>
      rw [hx] at h
      have h' : (if w = c.token_end then some acc
          else genAux c draws fuel (k + 1) (st.drop 1 ++ [w]) (acc ++ [w])) =
            some out := h
      by_cases hwe : w = c.token_end
      · rw [if_pos hwe] at h'
        have : acc = out := by injection h'
        exact this ▸ hacc
      · rw [if_neg hwe] at h'
        refine ih (k + 1) _ (acc ++ [w]) out ?_ h'
        intro x hxm
        rcases List.mem_append.mp hxm with hxm | hxm
        · exact hacc x hxm
        · rw [List.mem_singleton.mp hxm]
          exact hP st (draws k) w hx hwe

/-! ### C1: the cumulative distribution is not the prefix sum -/

/-- C1 (counterexample): the claim says element `i` of the cumulative
distribution of `ns` equals `ns[0] + ... + ns[i]` and the last element
equals the total weight, but for `ns = [1, 3]` the code produces `[1, 2]`
whose last element differs from the prefix sum `1 + 3 = 4`. -/
theorem accumulate_not_prefix_sum :
    accumulate [1, 3] = [1, 2] ∧ (accumulate [1, 3]).getD 1 0 ≠ 1 + 3 := by
  constructor
  · rfl
  · decide

/-- C1 (amended): for every non-empty weight list `ns`, the list computed
by `Chain::accumulate` has the same length as `ns` and its element `i`
equals `ns[0]` plus the sum of the first `i` elements of `ns` (so element
`0` is `ns[0]`, and the last element is `ns[0]` plus the total weight of
all but the last candidate, not the total weight). -/
theorem accumulate_shifted_prefix_sum (ns : List Int) (h : ns ≠ []) :
    (accumulate ns).length = ns.length ∧
      ∀ i, i < ns.length →
        (accumulate ns).getD i 0 = ns.getD 0 0 + (ns.take i).sum := by
  cases ns with
  | nil => exact absurd rfl h
  | cons n rest =>
    refine ⟨accumulateGo_length _ n, ?_⟩
    intro i hi
    simpa using accumulateGo_getD (n :: rest) n i hi

/-- Witness for C1 (amended) at `ns = [1, 3]`. -/
theorem accumulate_shifted_prefix_sum_witness :
    (accumulate [1, 3]).length = ([1, 3] : List Int).length ∧
      ∀ i, i < ([1, 3] : List Int).length →
        (accumulate [1, 3]).getD i 0 =
          ([1, 3] : List Int).getD 0 0 + (([1, 3] : List Int).take i).sum :=
  accumulate_shifted_prefix_sum [1, 3] (by decide)

/-! ### C2: the sampling step is inverse-CDF selection with bisect-right -/

/-- C2: for every state of a built chain whose candidate list and
cumulative-weight list are non-empty and every random fraction
`0 ≤ r < 1`, `Chain::next` scales `r` by the last (maximum) cumulative
value, truncates toward zero to the integer target, and returns the
candidate at the first position whose cumulative value strictly exceeds
the target — i.e. the first position with value `≥` target where an exact
tie moves to the following bucket (bisect-right semantics). -/
theorem next_inverse_cdf {T : Type} [DecidableEq T] (data : List (List T))
    (b e : T) (st : State T) (r : ℚ) (h0 : 0 ≤ r) (h1 : r < 1)
    (hne : (stateDist (Chain.new data b e) st).2 ≠ []) :
    ∃ i, i < (stateDist (Chain.new data b e) st).1.length ∧
      (∀ j, j < i → (stateDist (Chain.new data b e) st).2.getD j 0 ≤
        ⌊r * (((stateDist (Chain.new data b e) st).2.getLastD 0 : Int) : ℚ)⌋) ∧
      ⌊r * (((stateDist (Chain.new data b e) st).2.getLastD 0 : Int) : ℚ)⌋ <
        (stateDist (Chain.new data b e) st).2.getD i 0 ∧
      Chain.next (Chain.new data b e) st r =
        (stateDist (Chain.new data b e) st).1.get? i := by
  obtain ⟨w, hlk, hsd⟩ := stateDist_new data b e st hne
  obtain ⟨hwne, hwent⟩ := build_entries b e data st w hlk
  have hpos : ∀ v ∈ w.map Prod.snd, 0 < v := by
    intro v hv
    obtain ⟨q, hq, hqv⟩ := List.mem_map.mp hv
    have := (hwent q hq).1
    omega
  have hmapne : w.map Prod.snd ≠ [] := by
    intro hc
    exact hwne (List.map_eq_nil.mp hc)
  rw [Chain.next, hsd, compile_next]
  exact pick_spec (w.map Prod.fst) (accumulate (w.map Prod.snd)) r
    (accumulate_ne_nil _ hmapne)
    (by rw [accumulate_length, List.length_map, List.length_map])
    (accumulate_sorted _ hpos) (accumulate_pos _ hpos) h0 h1

/-- Witness for C2: the chain built from the single run `[0, 1, 2]` with
sentinels `3` and `4`, at the initial state and `r = 1/2`. -/
theorem next_inverse_cdf_witness :
    ∃ i, i < (stateDist (Chain.new [[0, 1, 2]] 3 4) [3, 3]).1.length ∧
      (∀ j, j < i → (stateDist (Chain.new [[0, 1, 2]] 3 4) [3, 3]).2.getD j 0 ≤
        ⌊(1 / 2 : ℚ) *
          (((stateDist (Chain.new [[0, 1, 2]] 3 4) [3, 3]).2.getLastD 0 : Int) : ℚ)⌋) ∧
      ⌊(1 / 2 : ℚ) *
        (((stateDist (Chain.new [[0, 1, 2]] 3 4) [3, 3]).2.getLastD 0 : Int) : ℚ)⌋ <
        (stateDist (Chain.new [[0, 1, 2]] 3 4) [3, 3]).2.getD i 0 ∧
      Chain.next (Chain.new [[0, 1, 2]] 3 4) [3, 3] (1 / 2) =
        (stateDist (Chain.new [[0, 1, 2]] 3 4) [3, 3]).1.get? i :=
  next_inverse_cdf [[0, 1, 2]] 3 4 [3, 3] (1 / 2) (by norm_num) (by norm_num)
    (by decide)

/-! ### C3: the model counts window/successor occurrences -/

/-- C3: building extends each run with `STATE_SIZE = 2` begin sentinels
and one end sentinel, records one increment per window position, so the
model weight of `(s, t)` equals the number of positions where window `s`
is immediately followed by `t` across all extended runs, and every stored
state has a non-empty weight table whose counts are all at least 1. -/
theorem build_counts {T : Type} [DecidableEq T] (b e : T)
    (data : List (List T)) :
    STATE_SIZE = 2 ∧
    (Chain.new data b e).model = build b e data ∧
    (∀ s t, mcount (build b e data) s t = (specOccCount b e data s t : Int)) ∧
    (∀ s w, List.lookup s (build b e data) = some w →
      w ≠ [] ∧ ∀ q ∈ w, 1 ≤ q.2) := by
  refine ⟨rfl, new_model data b e, ?_, ?_⟩
  · intro s t
    have h0 : mcount ([] : Model T) s t = 0 := by
      simp [mcount, List.lookup]
    rw [build, mcount_build b e data [] s t, h0, zero_add, specOccCount]
    congr 1
    congr 1
    refine List.map_congr_left ?_
    intro run _
    rw [runPairs_countP]
  · intro s w h
    obtain ⟨hne, hent⟩ := build_entries b e data s w h
    exact ⟨hne, fun q hq => (hent q hq).1⟩

/-- Witness for C3: the corpus with the single run `[0]` and sentinels
`1`, `2`, checked at the initial state and its follower `0`. -/
theorem build_counts_witness :
    mcount (build (1 : ℕ) 2 [[0]]) [1, 1] 0 =
        (specOccCount (1 : ℕ) 2 [[0]] [1, 1] 0 : Int) ∧
      ([(0, 1)] : Weight ℕ) ≠ [] ∧ ∀ q ∈ ([(0, 1)] : Weight ℕ), 1 ≤ q.2 :=
  ⟨(build_counts (1 : ℕ) 2 [[0]]).2.2.1 [1, 1] 0,
    (build_counts (1 : ℕ) 2 [[0]]).2.2.2 [1, 1] [(0, 1)] (by decide)⟩

/-! ### C5: a single training sentence generates deterministically -/

/-- C5: with the tokenization of the single sentence `a b c` (tokens
`0, 1, 2`, then sentinels `3, 4` as `Text::new` would assign them) and
state size 2, every `Chain::generate` call from the default initial state
returns exactly `[0, 1, 2]`, regardless of the random draws: every
reachable state has a single successor. -/
theorem generate_deterministic_abc (draws : ℕ → ℚ)
    (hd : ∀ k, 0 ≤ draws k ∧ draws k < 1) (fuel : ℕ) (hf : 4 ≤ fuel) :
    (tokenize ⟨[], []⟩ [['a'], ['b'], ['c']]).1 = [0, 1, 2] ∧
      Chain.generate (Chain.new [[0, 1, 2]] 3 4) draws fuel none =
        some [0, 1, 2] := by
  refine ⟨by decide, ?_⟩
  obtain ⟨m, rfl⟩ : ∃ m, fuel = m + 4 := ⟨fuel - 4, by omega⟩
  have hn : ∀ (st : State ℕ) (x : ℕ) (r : ℚ),
      stateDist (Chain.new [[0, 1, 2]] 3 4) st = ([x], [1]) →
      0 ≤ r → r < 1 →
      Chain.next (Chain.new [[0, 1, 2]] 3 4) st r = some x := by
    intro st x r hsd h0 h1
    rw [Chain.next, hsd]
    exact pick_one x r h0 h1
  have hs1 : stateDist (Chain.new [[0, 1, 2]] 3 4) [3, 3] = ([0], [1]) := by
    decide
  have hs2 : stateDist (Chain.new [[0, 1, 2]] 3 4) [3, 0] = ([1], [1]) := by
    decide
  have hs3 : stateDist (Chain.new [[0, 1, 2]] 3 4) [0, 1] = ([2], [1]) := by
    decide
  have hs4 : stateDist (Chain.new [[0, 1, 2]] 3 4) [1, 2] = ([4], [1]) := by
    decide
  have hnot : ∀ x : ℕ, x ≠ 4 → ¬x = (Chain.new [[0, 1, 2]] 3 4).token_end := by
    intro x hx hc
    exact hx (by rw [hc]; decide)
  have hyes : (4 : ℕ) = (Chain.new [[0, 1, 2]] 3 4).token_end := by decide
  show genAux (Chain.new [[0, 1, 2]] 3 4) draws ((m + 3) + 1) 0 [3, 3] [] =
    some [0, 1, 2]
  rw [genAux_step_cons _ draws (m + 3) 0 [3, 3] [] 0
    (hn [3, 3] 0 (draws 0) hs1 (hd 0).1 (hd 0).2) (hnot 0 (by decide))]
  show genAux (Chain.new [[0, 1, 2]] 3 4) draws ((m + 2) + 1) 1 [3, 0] [0] =
    some [0, 1, 2]
  rw [genAux_step_cons _ draws (m + 2) 1 [3, 0] [0] 1
    (hn [3, 0] 1 (draws 1) hs2 (hd 1).1 (hd 1).2) (hnot 1 (by decide))]
  show genAux (Chain.new [[0, 1, 2]] 3 4) draws ((m + 1) + 1) 2 [0, 1] [0, 1] =
    some [0, 1, 2]
  rw [genAux_step_cons _ draws (m + 1) 2 [0, 1] [0, 1] 2
    (hn [0, 1] 2 (draws 2) hs3 (hd 2).1 (hd 2).2) (hnot 2 (by decide))]
  show genAux (Chain.new [[0, 1, 2]] 3 4) draws (m + 1) 3 [1, 2] [0, 1, 2] =
    some [0, 1, 2]
  exact genAux_step_end _ draws m 3 [1, 2] [0, 1, 2] 4
    (hn [1, 2] 4 (draws 3) hs4 (hd 3).1 (hd 3).2) hyes.symm ▸ rfl

/-- Witness for C5: the all-zero draw stream with fuel 4. -/
theorem generate_deterministic_abc_witness :
    (tokenize ⟨[], []⟩ [['a'], ['b'], ['c']]).1 = [0, 1, 2] ∧
      Chain.generate (Chain.new [[0, 1, 2]] 3 4) (fun _ => 0) 4 none =
        some [0, 1, 2] :=
  generate_deterministic_abc (fun _ => 0)
    (fun _ => ⟨le_refl 0, by norm_num⟩) 4 (le_refl 4)

/-! ### C6: generated sequences never contain the sentinels -/

/-- C6: if no training run contains the begin or end sentinel, then every
sequence that `Chain::generate` returns from the default initial state
contains neither sentinel. -/
theorem generate_no_sentinels {T : Type} [DecidableEq T]
    (data : List (List T)) (b e : T) (draws : ℕ → ℚ) (fuel : ℕ)
    (out : List T) (hb : ∀ run ∈ data, b ∉ run) (he : ∀ run ∈ data, e ∉ run)
    (hgen : Chain.generate (Chain.new data b e) draws fuel none = some out) :
    b ∉ out ∧ e ∉ out := by
  have hend : (Chain.new data b e).token_end = e := by
    cases h : List.lookup (List.replicate STATE_SIZE b) (build b e data) with
    | some w => rw [new_eq_some data b e w h]
    | none => rw [new_eq_none data b e h]
  have hP : ∀ (st : State T) (r : ℚ) (x : T),
      (Chain.new data b e).next st r = some x →
      ¬x = (Chain.new data b e).token_end → x ≠ b ∧ x ≠ e := by
    intro st r x hx hxe
    rw [hend] at hxe
    rcases next_new_tokens data b e st r x hx with ⟨run, hrun, hxr⟩ | hxeq
    · exact ⟨fun hxb => hb run hrun (hxb ▸ hxr),
        fun hxe' => he run hrun (hxe' ▸ hxr)⟩
    · exact absurd hxeq hxe
  have hout := genAux_sound (Chain.new data b e) draws
    (fun x => x ≠ b ∧ x ≠ e) hP fuel 0 _ [] out
    (fun x hx => absurd hx (List.not_mem_nil x)) hgen
  exact ⟨fun hmem => (hout b hmem).1 rfl, fun hmem => (hout e hmem).2 rfl⟩

theorem gen_single_zero :
    Chain.generate (Chain.new [[0]] 1 2) (fun _ => 0) 2 none = some [0] := by
  have hs1 : stateDist (Chain.new [[0]] 1 2) [1, 1] = ([0], [1]) := by decide
  have hs2 : stateDist (Chain.new [[0]] 1 2) [1, 0] = ([2], [1]) := by decide
  have hn : ∀ (st : State ℕ) (x : ℕ),
      stateDist (Chain.new [[0]] 1 2) st = ([x], [1]) →
      Chain.next (Chain.new [[0]] 1 2) st 0 = some x := by
    intro st x hsd
    rw [Chain.next, hsd]
    exact pick_one x 0 (le_refl 0) (by norm_num)
  show genAux (Chain.new [[0]] 1 2) (fun _ => 0) (1 + 1) 0 [1, 1] [] =
    some [0]
  rw [genAux_step_cons _ _ 1 0 [1, 1] [] 0 (hn [1, 1] 0 hs1) (by decide)]
  exact genAux_step_end _ _ 0 1 [1, 0] [0] 2 (hn [1, 0] 2 hs2) (by decide)

/-- Witness for C6: the corpus `[[0]]` with sentinels `1`, `2` and the
all-zero draw stream. -/
theorem generate_no_sentinels_witness :
    (1 : ℕ) ∉ ([0] : List ℕ) ∧ (2 : ℕ) ∉ ([0] : List ℕ) :=
  generate_no_sentinels [[0]] 1 2 (fun _ => 0) 2 [0] (by decide) (by decide)
    gen_single_zero

/-! ### Text layer helpers -/

theorem round_MOR_three : round (MOR * ((3 : ℕ) : ℚ)) = 2 := by
  rw [MOR, round_eq, Int.floor_eq_iff]
  constructor <;> norm_num

theorem round_MOR_one : round (MOR * ((1 : ℕ) : ℚ)) = 1 := by
  rw [MOR, round_eq, Int.floor_eq_iff]
  constructor <;> norm_num

theorem nilIsPrefixOf (l : List Char) : ([] : List Char).isPrefixOf l = true := by
  cases l <;> rfl

theorem containsList_nil (hay : List Char) : containsList hay [] = true := by
  rw [containsList, List.any_eq_true]
  exact ⟨0, List.mem_range.mpr (Nat.succ_pos _), nilIsPrefixOf _⟩

theorem verify_nil (txt : Text) (mor : ℚ) (mot : ℕ) :
    txt.verify [] mor mot = false := by
  rw [Text.verify]
  have h1 : overlapMaxOf mor mot ([] : List (List Char)).length = 0 := by
    rw [overlapMaxOf]
    simp
  rw [gramCountOf, h1]
  simp [containsList_nil, joinWords]

theorem verify_single_empty (txt : Text) :
    txt.verify [[]] MOR MOT = false := by
  rw [Text.verify]
  have h1 : overlapMaxOf MOR MOT ([[]] : List (List Char)).length = 1 := by
    rw [overlapMaxOf, show ([[]] : List (List Char)).length = 1 from rfl,
      round_MOR_one]
    rfl
  rw [gramCountOf, h1]
  simp [containsList_nil, joinWords]

/-! ### C4: the overlap verifier -/

/-- C4: `Text::verify` computes `overlapMax` as the capped rounded ratio,
slides `max(1, len - overlapMax)` windows of `overlapMax + 1` words
(truncated at the end of the list), and returns `false` exactly when some
window's space-joined text occurs in the rejoined corpus; in particular,
with corpus `the quick brown fox` and `maxOverlapTotal ≥ 3` it rejects
`["the","quick","brown"]` and accepts `["lazy","dog","jumps"]`. -/
theorem verify_windows (txt : Text) (words : List (List Char)) (mor : ℚ)
    (mot : ℕ) :
    (txt.verify words mor mot = false ↔
      ∃ i, i < gramCountOf mor mot words.length ∧
        containsList txt.rejoined_text
          (joinWords ((words.drop i).take
            (overlapMaxOf mor mot words.length + 1))) = true) ∧
    (∀ mot', 3 ≤ mot' →
      Text.verify ⟨[], ("the quick brown fox").toList, Chain.new [] 0 0, ⟨[], []⟩⟩
        [("the").toList, ("quick").toList, ("brown").toList] MOR mot' = false) ∧
    (∀ mot', 3 ≤ mot' →
      Text.verify ⟨[], ("the quick brown fox").toList, Chain.new [] 0 0, ⟨[], []⟩⟩
        [("lazy").toList, ("dog").toList, ("jumps").toList] MOR mot' = true) := by
  refine ⟨?_, ?_, ?_⟩
  · rw [Text.verify]
    rw [show ((List.range (gramCountOf mor mot words.length)).all fun i =>
        ! containsList txt.rejoined_text
          (joinWords ((words.drop i).take
            (overlapMaxOf mor mot words.length + 1)))) = false ↔
        ¬((List.range (gramCountOf mor mot words.length)).all fun i =>
          ! containsList txt.rejoined_text
            (joinWords ((words.drop i).take
              (overlapMaxOf mor mot words.length + 1)))) = true by
      simp]
    rw [List.all_eq_true]
    push_neg
    constructor
    · rintro ⟨i, hi, hb⟩
      exact ⟨i, List.mem_range.mp hi, by simpa using hb⟩
    · rintro ⟨i, hi, hb⟩
      exact ⟨i, List.mem_range.mpr hi, by simpa using hb⟩
  · intro mot' h3
    have hov : overlapMaxOf MOR mot'
        ([("the").toList, ("quick").toList, ("brown").toList]).length = 2 := by
      rw [overlapMaxOf,
        show ([("the").toList, ("quick").toList, ("brown").toList]).length = 3
          from rfl, round_MOR_three]
      have : ((2 : Int)).toNat = 2 := rfl
      rw [this]
      omega
    rw [Text.verify, gramCountOf, hov]
    decide
  · intro mot' h3
    have hov : overlapMaxOf MOR mot'
        ([("lazy").toList, ("dog").toList, ("jumps").toList]).length = 2 := by
      rw [overlapMaxOf,
        show ([("lazy").toList, ("dog").toList, ("jumps").toList]).length = 3
          from rfl, round_MOR_three]
      have : ((2 : Int)).toNat = 2 := rfl
      rw [this]
      omega
    rw [Text.verify, gramCountOf, hov]
    decide

/-- Witness for C4: the first concrete example at `maxOverlapTotal = 15`. -/
theorem verify_windows_witness :
    Text.verify ⟨[], ("the quick brown fox").toList, Chain.new [] 0 0, ⟨[], []⟩⟩
      [("the").toList, ("quick").toList, ("brown").toList] MOR 15 = false :=
  (verify_windows ⟨[], ("the quick brown fox").toList, Chain.new [] 0 0, ⟨[], []⟩⟩
    [] MOR 15).2.1 15 (by norm_num)

/-! ### C7: exhausted attempts return the empty string -/

theorem textGenAux_succ (txt : Text) (draws : ℕ → ℕ → ℚ) (fuel : ℕ)
    (opts : TextOptions) (n : ℕ) :
    textGenAux txt draws fuel opts (n + 1) =
      match txt.chain.generate (draws n) fuel none with
      | none => none
      | some tokens =>
        if tokens.length > usizeOfI32 opts.max_words ∨
            tokens.length < usizeOfI32 opts.min_words then
          textGenAux txt draws fuel opts n
        else
          if txt.verify (tokens.map fun tok => txt.tokenizer.to_word tok)
              MOR MOT then
            some (joinWords (tokens.map fun tok => txt.tokenizer.to_word tok))
          else textGenAux txt draws fuel opts n := rfl

/-- C7: `Text::generate` returns the empty string when `tries = 0`, and
more generally any non-empty result comes from an attempt whose candidate
passed the length filter and the overlap verifier — the empty string is
the only other outcome of a terminating run. -/
theorem text_generate_exhausted (txt : Text) (draws : ℕ → ℕ → ℚ) (fuel : ℕ)
    (opts : TextOptions) :
    (opts.tries = 0 → Text.generate txt draws fuel opts = some []) ∧
    (∀ s, Text.generate txt draws fuel opts = some s → s ≠ [] →
      ∃ n tokens, Chain.generate txt.chain (draws n) fuel none = some tokens ∧
        ¬(tokens.length > usizeOfI32 opts.max_words ∨
          tokens.length < usizeOfI32 opts.min_words) ∧
        txt.verify (tokens.map fun tok => txt.tokenizer.to_word tok) MOR MOT =
          true ∧
        s = joinWords (tokens.map fun tok => txt.tokenizer.to_word tok)) := by
  have main : ∀ n s, textGenAux txt draws fuel opts n = some s → s ≠ [] →
      ∃ k tokens, Chain.generate txt.chain (draws k) fuel none = some tokens ∧
        ¬(tokens.length > usizeOfI32 opts.max_words ∨
          tokens.length < usizeOfI32 opts.min_words) ∧
        txt.verify (tokens.map fun tok => txt.tokenizer.to_word tok) MOR MOT =
          true ∧
        s = joinWords (tokens.map fun tok => txt.tokenizer.to_word tok) := by
    intro n
    induction n with
    | zero =>
      intro s h hne
      have h' : (some ([] : List Char) : Option (List Char)) = some s := h
      have : ([] : List Char) = s := by injection h'
      exact absurd this.symm hne
    | succ n ih =>
      intro s h hne
      rw [textGenAux_succ] at h
      cases hg : txt.chain.generate (draws n) fuel none with
      | none => rw [hg] at h; cases h
      | some tokens =>
        rw [hg] at h
        have h' : (if tokens.length > usizeOfI32 opts.max_words ∨
              tokens.length < usizeOfI32 opts.min_words then
            textGenAux txt draws fuel opts n
          else
            if txt.verify (tokens.map fun tok => txt.tokenizer.to_word tok)
                MOR MOT then
              some (joinWords (tokens.map fun tok => txt.tokenizer.to_word tok))
            else textGenAux txt draws fuel opts n) = some s := h
        by_cases hlen : tokens.length > usizeOfI32 opts.max_words ∨
            tokens.length < usizeOfI32 opts.min_words
        · rw [if_pos hlen] at h'
          exact ih s h' hne
        · rw [if_neg hlen] at h'
          by_cases hv : txt.verify
              (tokens.map fun tok => txt.tokenizer.to_word tok) MOR MOT = true
          · rw [if_pos hv] at h'
            have hj : joinWords (tokens.map fun tok =>
                txt.tokenizer.to_word tok) = s := by injection h'
            exact ⟨n, tokens, hg, hlen, hv, hj.symm⟩
          · rw [if_neg hv] at h'
            exact ih s h' hne
  refine ⟨?_, ?_⟩
  · intro h0
    rw [Text.generate, h0]
    rfl
  · intro s h hne
    rw [Text.generate] at h
    exact main opts.tries.toNat s h hne

/-- Witness for C7: any text value with `tries = 0`. -/
theorem text_generate_exhausted_witness :
    Text.generate ⟨[], [], Chain.new [[0]] 1 2, ⟨[], []⟩⟩ (fun _ _ => 0) 1
      ⟨0, 0, 100⟩ = some [] :=
  (text_generate_exhausted ⟨[], [], Chain.new [[0]] 1 2, ⟨[], []⟩⟩
    (fun _ _ => 0) 1 ⟨0, 0, 100⟩).1 rfl

/-! ### C10: the empty candidate is always rejected -/

/-- C10: `verify` applied to the empty word list returns `false` for every
corpus and parameters (its single window joins to the empty string, a
substring of everything); consequently an accepted candidate's joined
string is never empty, so an empty `Text::generate` result always means
the attempts were exhausted. -/
theorem verify_rejects_empty :
    (∀ (txt : Text) (mor : ℚ) (mot : ℕ), txt.verify [] mor mot = false) ∧
    (∀ (txt : Text) (ws : List (List Char)),
      txt.verify ws MOR MOT = true → joinWords ws ≠ []) := by
  refine ⟨verify_nil, ?_⟩
  intro txt ws h hj
  match ws with
  | [] =>
    rw [verify_nil] at h
    cases h
  | [w] =>
    have hw : w = [] := hj
    rw [hw] at h
    rw [verify_single_empty] at h
    cases h
  | w1 :: w2 :: rest =>
    simp only [joinWords] at hj
    simp at hj

/-- Witness for C10: corpus `x`, accepted candidate `["a"]`. -/
theorem verify_rejects_empty_witness :
    joinWords [['a']] ≠ [] := by
  have hv : Text.verify ⟨[], ['x'], Chain.new [] 0 0, ⟨[], []⟩⟩ [['a']]
      MOR MOT = true := by
    rw [Text.verify]
    have h1 : overlapMaxOf MOR MOT ([['a']] : List (List Char)).length = 1 := by
      rw [overlapMaxOf, show ([['a']] : List (List Char)).length = 1 from rfl,
        round_MOR_one]
      rfl
    rw [gramCountOf, h1]
    decide
  exact verify_rejects_empty.2 ⟨[], ['x'], Chain.new [] 0 0, ⟨[], []⟩⟩ [['a']] hv

/-! ### C8: vocabulary round trip and idempotence -/

/-- C8: for every synchronised vocabulary and every word `w`,
`to_word (to_token w) = w`, and a second `to_token w` call on the updated
vocabulary returns the same token. -/
theorem to_token_to_word (v : Vocab) (w : List Char) (h : Synced v) :
    Vocab.to_word (v.to_token w).2 (v.to_token w).1 = w ∧
      (Vocab.to_token (v.to_token w).2 w).1 = (v.to_token w).1 := by
  unfold Vocab.to_token
  cases hl : List.lookup w v.word_to_id with
  | some id =>
    refine ⟨?_, ?_⟩
    · have hm := h (w, id) (lookup_mem _ _ _ hl)
      simp only [Vocab.to_word]
      rw [hm]
      rfl
    · simp [hl]
  | none =>
    refine ⟨?_, ?_⟩
    · simp only [Vocab.to_word]
      rw [List.get?_concat_length]
      rfl
    · simp [List.lookup]

/-- Witness for C8 at the empty vocabulary and the word `hi`. -/
theorem to_token_to_word_witness :
    Vocab.to_word ((Vocab.mk [] []).to_token ('h' :: 'i' :: [])).2
        ((Vocab.mk [] []).to_token ('h' :: 'i' :: [])).1 = 'h' :: 'i' :: [] ∧
      (Vocab.to_token ((Vocab.mk [] []).to_token ('h' :: 'i' :: [])).2
          ('h' :: 'i' :: [])).1 =
        ((Vocab.mk [] []).to_token ('h' :: 'i' :: [])).1 :=
  to_token_to_word ⟨[], []⟩ ('h' :: 'i' :: [])
    (fun p hp => absurd hp (List.not_mem_nil p))

/-! ### C9: out-of-range token lookup -/

/-- C9: for every vocabulary and every token with no registered word,
`to_word` returns the empty string (the function is total: it never
fails). -/
theorem to_word_out_of_range (v : Vocab) (t : ℕ)
    (h : v.id_to_word.length ≤ t) : v.to_word t = [] := by
  unfold Vocab.to_word
  rw [List.get?_eq_none.mpr h]
  rfl

/-- Witness for C9: token `5` in a one-word vocabulary. -/
theorem to_word_out_of_range_witness :
    Vocab.to_word ⟨[], [['a']]⟩ 5 = [] :=
  to_word_out_of_range ⟨[], [['a']]⟩ 5 (by decide)

end Marukov
